import Mathlib

/-!
Shallow embedding of `accounts.py` (module `accounts`): a simulated trading
account with cash balance, share holdings and a transaction log.

Modelling conventions:
* Monetary amounts are `Rat` (the source uses Python numbers; the spec allows
  any consistent numeric semantics).  A separate `PyFloat` type models the
  IEEE-style special values (infinities, NaN) needed for the finiteness
  question about `deposit`/`withdraw`.
* Quantities and holding values are `Int` (Python `int`).
* Python dicts (`_holdings`) become insertion-ordered association lists:
  assignment updates the first matching key in place or appends, `del`
  removes the key, exactly as `dict` behaves for the unique-key lists the
  code constructs.
* Exceptions become an error type carried in the second component of
  `Account × Option TradingError`: each operation returns the account state
  as mutated up to the point of the raise (translating the source line by
  line) together with the error, so atomicity is a provable property rather
  than a typing artifact.  Exception messages are modelled by the structured
  payloads they interpolate.
* The timestamp written by `_record_transaction` comes from an external
  clock collaborator and no claim mentions it, so transaction records carry
  every field except the timestamp.
* The price source `get_share_price` reads a table that is a module-level
  constant in the source (`_test_prices`) but is mocked/patched throughout
  the repository; the embedding passes the table explicitly.
-/

namespace Trading

/-- Transaction kinds recorded by `_record_transaction` (the `type` field). -/
inductive TxnType where
  | DEPOSIT
  | WITHDRAW
  | BUY
  | SELL
deriving DecidableEq, Repr

/-- One transaction record, as built by `Account._record_transaction`
(timestamp abstracted away, see module docstring). -/
structure Txn where
  type : TxnType
  symbol : Option String
  quantity : Option Int
  price_per_share : Option Rat
  total_amount : Rat
deriving DecidableEq, Repr

/-- The errors raised by `accounts.py`.  `invalidAmount` and
`invalidQuantity` are the two `ValueError` messages; the others are the
custom `TradingError` subclasses.  Payload fields carry the values the
corresponding Python message interpolates. -/
inductive TradingError where
  | invalidAmount
  | invalidQuantity
  | insufficientFunds (requested : Rat) (balance : Rat)
  | insufficientShares (requested : Int) (symbol : String) (owned : Int)
  | unknownSymbol (symbol : String)
deriving DecidableEq, Repr

/-- `_holdings : Dict[str, int]` as an insertion-ordered association list. -/
abbrev Holdings := List (String × Int)

/-- The price table consulted by `get_share_price` (keys uppercase, as in
`_test_prices`). -/
abbrev PriceTable := List (String × Rat)

/-- `str.upper()`: uppercase every character (the ASCII mapping; every
symbol and key in the repository is ASCII). -/
def pyUpper (s : String) : String := ⟨s.data.map Char.toUpper⟩

/-- `d.get(k, 0)` on a Python dict. -/
def lookupD (h : Holdings) (k : String) : Int :=
  match h.find? (fun kv => kv.1 == k) with
  | some kv => kv.2
  | none => 0

/-- `k in d` on a Python dict. -/
def hasKey (h : Holdings) (k : String) : Bool :=
  (h.find? (fun kv => kv.1 == k)).isSome

/-- `d[k] = v` on a Python dict: replace the first binding in place, or
append a new one. -/
def setKey : Holdings → String → Int → Holdings
  | [], k, v => [(k, v)]
  | kv :: rest, k, v =>
      if kv.1 == k then (k, v) :: rest else kv :: setKey rest k v

/-- `del d[k]` on a Python dict (the code only calls it on present keys). -/
def delKey : Holdings → String → Holdings
  | [], _ => []
  | kv :: rest, k => if kv.1 == k then rest else kv :: delKey rest k

/-- The fixed test data `_test_prices` from `accounts.py`. -/
def test_prices : PriceTable :=
  [("AAPL", 150), ("GOOGL", 2750), ("TSLA", (1401 : Rat) / 2)]

/-- `get_share_price(symbol)`: case-insensitive lookup in the price table,
raising `UnknownSymbolError` when absent. -/
def get_share_price (prices : PriceTable) (symbol : String) :
    Except TradingError Rat :=
  match (prices.find? (fun kv => kv.1 == pyUpper symbol)).map (·.2) with
  | none => .error (.unknownSymbol symbol)
  | some price => .ok price

/-- The state owned by an `Account` instance (attribute names follow the
source, without the leading underscore). -/
structure Account where
  account_id : String
  user_name : String
  cash_balance : Rat
  total_deposits : Rat
  holdings : Holdings
  transactions : List Txn
deriving DecidableEq, Repr

namespace Account

/-- `Account._record_transaction`: append one record; the `symbol` field is
uppercased when truthy (`symbol.upper() if symbol else None`). -/
def record_transaction (a : Account) (type : TxnType) (symbol : Option String)
    (quantity : Option Int) (price_per_share : Option Rat)
    (total_amount : Rat) : Account :=
  { a with
    transactions := a.transactions ++
      [{ type := type
         symbol := symbol.bind (fun s => if s = "" then none else some (pyUpper s))
         quantity := quantity
         price_per_share := price_per_share
         total_amount := total_amount }] }

/-- `Account.__init__`: rejects a negative initial deposit (`ValueError`),
otherwise starts with `cash_balance = total_deposits = initial_deposit`,
recording one DEPOSIT transaction when the initial deposit is positive. -/
def construct (account_id user_name : String) (initial_deposit : Rat) :
    Option Account :=
  if initial_deposit < 0 then none
  else
    let a : Account :=
      { account_id := account_id
        user_name := user_name
        cash_balance := initial_deposit
        total_deposits := initial_deposit
        holdings := []
        transactions := [] }
    some (if initial_deposit > 0 then
            a.record_transaction .DEPOSIT none none none initial_deposit
          else a)

/-- `Account.deposit` (the input is numeric by type, so the
`isinstance` half of the check is vacuous here). -/
def deposit (a : Account) (amount : Rat) : Account × Option TradingError :=
  if amount ≤ 0 then (a, some .invalidAmount)
  else
    let a := { a with cash_balance := a.cash_balance + amount }
    let a := { a with total_deposits := a.total_deposits + amount }
    (a.record_transaction .DEPOSIT none none none amount, none)

/-- `Account.withdraw`. -/
def withdraw (a : Account) (amount : Rat) : Account × Option TradingError :=
  if amount ≤ 0 then (a, some .invalidAmount)
  else if a.cash_balance < amount then
    (a, some (.insufficientFunds amount a.cash_balance))
  else
    let a := { a with cash_balance := a.cash_balance - amount }
    (a.record_transaction .WITHDRAW none none none amount, none)

/-- `Account.buy_shares` (the quantity is an `Int` by type, so the
`isinstance(quantity, int)` half of the check is vacuous here). -/
def buy_shares (prices : PriceTable) (a : Account) (symbol : String)
    (quantity : Int) : Account × Option TradingError :=
  if quantity ≤ 0 then (a, some .invalidQuantity)
  else
    match get_share_price prices symbol with
    | .error e => (a, some e)
    | .ok price =>
        let total_cost : Rat := price * quantity
        if a.cash_balance < total_cost then
          (a, some (.insufficientFunds total_cost a.cash_balance))
        else
          let a := { a with cash_balance := a.cash_balance - total_cost }
          let normalized_symbol := pyUpper symbol
          let a := { a with
            holdings := setKey a.holdings normalized_symbol
              (lookupD a.holdings normalized_symbol + quantity) }
          (a.record_transaction .BUY (some symbol) (some quantity)
            (some price) total_cost, none)

/-- `Account.sell_shares`: the shares-owned check precedes the price
lookup. -/
def sell_shares (prices : PriceTable) (a : Account) (symbol : String)
    (quantity : Int) : Account × Option TradingError :=
  if quantity ≤ 0 then (a, some .invalidQuantity)
  else
    let normalized_symbol := pyUpper symbol
    let shares_owned := lookupD a.holdings normalized_symbol
    if shares_owned < quantity then
      (a, some (.insufficientShares quantity normalized_symbol shares_owned))
    else
      match get_share_price prices symbol with
      | .error e => (a, some e)
      | .ok price =>
          let total_value : Rat := price * quantity
          let a := { a with cash_balance := a.cash_balance + total_value }
          let a := { a with
            holdings := setKey a.holdings normalized_symbol
              (lookupD a.holdings normalized_symbol - quantity) }
          let a :=
            if lookupD a.holdings normalized_symbol = 0 then
              { a with holdings := delKey a.holdings normalized_symbol }
            else a
          (a.record_transaction .SELL (some symbol) (some quantity)
            (some price) total_value, none)

/-- `Account.get_cash_balance`. -/
def get_cash_balance (a : Account) : Rat := a.cash_balance

/-- The running sum of `Account.get_portfolio_value`: an unresolvable
symbol contributes nothing and the loop continues. -/
def sumHoldings (prices : PriceTable) : Holdings → Rat
  | [] => 0
  | (symbol, quantity) :: rest =>
      (match get_share_price prices symbol with
       | .ok price => price * quantity
       | .error _ => 0) + sumHoldings prices rest

/-- `Account.get_portfolio_value`. -/
def get_portfolio_value (prices : PriceTable) (a : Account) : Rat :=
  sumHoldings prices a.holdings

/-- `Account.get_total_value` = cash + portfolio value. -/
def get_total_value (prices : PriceTable) (a : Account) : Rat :=
  a.get_cash_balance + get_portfolio_value prices a

/-- `Account.get_profit_loss` = total value - total deposits. -/
def get_profit_loss (prices : PriceTable) (a : Account) : Rat :=
  get_total_value prices a - a.total_deposits

end Account

/-- One call to a mutating operation of the account. -/
inductive Op where
  | deposit (amount : Rat)
  | withdraw (amount : Rat)
  | buy (symbol : String) (quantity : Int)
  | sell (symbol : String) (quantity : Int)
deriving DecidableEq, Repr

/-- Dispatch one operation (the price table in force at call time is part
of the call, since the repository patches prices between calls). -/
def applyOp (prices : PriceTable) (a : Account) : Op → Account × Option TradingError
  | .deposit amount => a.deposit amount
  | .withdraw amount => a.withdraw amount
  | .buy symbol quantity => Account.buy_shares prices a symbol quantity
  | .sell symbol quantity => Account.sell_shares prices a symbol quantity

/-- The price collaborator contract of the spec: every listed price is
positive. -/
def ValidPrices (prices : PriceTable) : Prop :=
  ∀ kv ∈ prices, 0 < kv.2

/-- Run a sequence of calls, each under the price table in force at that
moment; a call that raises leaves the state it returned (which the
atomicity theorem shows is the unmodified state). -/
def run (a : Account) (steps : List (PriceTable × Op)) : Account :=
  steps.foldl (fun acc s => (applyOp s.1 acc s.2).1) a

/-- A state is reachable when it arises from a constructed account by some
sequence of calls whose price tables satisfy the collaborator contract. -/
def Reachable (a : Account) : Prop :=
  ∃ (account_id user_name : String) (d : Rat) (a0 : Account)
    (steps : List (PriceTable × Op)),
    Account.construct account_id user_name d = some a0 ∧
    (∀ s ∈ steps, ValidPrices s.1) ∧
    a = run a0 steps

/-- Sum of the `total_amount` fields of the transactions of one kind. -/
def sumByType (k : TxnType) (ts : List Txn) : Rat :=
  ((ts.filter fun t => t.type == k).map Txn.total_amount).sum

/-- The state invariant maintained by every operation: a non-negative cash
balance, holdings whose entries are positive and keyed by normalized
(uppercase-fixed) symbols without duplicates, and balances determined by
the transaction log. -/
def Inv (a : Account) : Prop :=
  0 ≤ a.cash_balance ∧
  (∀ kv ∈ a.holdings, 0 < kv.2 ∧ pyUpper kv.1 = kv.1) ∧
  (a.holdings.map Prod.fst).Nodup ∧
  a.total_deposits = sumByType .DEPOSIT a.transactions ∧
  a.cash_balance =
    sumByType .DEPOSIT a.transactions - sumByType .WITHDRAW a.transactions
      - sumByType .BUY a.transactions + sumByType .SELL a.transactions

/-!
The Python numbers passed to `deposit`/`withdraw` are IEEE doubles, so the
guard `amount <= 0` sees the special values `inf`, `-inf` and `nan`.  The
following small model captures exactly those values together with the
exact finite numbers, with IEEE comparison and addition, to settle what
the guards in `deposit`/`withdraw` do on non-finite input.
-/

/-- A Python float: an exact finite value or one of the IEEE special
values. -/
inductive PyFloat where
  | finite (q : Rat)
  | posInf
  | negInf
  | nan
deriving DecidableEq, Repr

/-- IEEE `<=` on Python floats: any comparison with NaN is false. -/
def pyLe : PyFloat → PyFloat → Bool
  | .nan, _ => false
  | _, .nan => false
  | .negInf, _ => true
  | _, .posInf => true
  | .posInf, _ => false
  | _, .negInf => false
  | .finite a, .finite b => a ≤ b

/-- IEEE `<` on Python floats: any comparison with NaN is false. -/
def pyLt : PyFloat → PyFloat → Bool
  | .nan, _ => false
  | _, .nan => false
  | .negInf, .negInf => false
  | .negInf, _ => true
  | _, .negInf => false
  | .posInf, _ => false
  | .finite _, .posInf => true
  | .finite a, .finite b => a < b

/-- IEEE addition on Python floats (finite arithmetic kept exact). -/
def pyAdd : PyFloat → PyFloat → PyFloat
  | .nan, _ => .nan
  | _, .nan => .nan
  | .posInf, .negInf => .nan
  | .negInf, .posInf => .nan
  | .posInf, _ => .posInf
  | _, .posInf => .posInf
  | .negInf, _ => .negInf
  | _, .negInf => .negInf
  | .finite a, .finite b => .finite (a + b)

/-- IEEE subtraction on Python floats (finite arithmetic kept exact). -/
def pySub : PyFloat → PyFloat → PyFloat
  | .nan, _ => .nan
  | _, .nan => .nan
  | .posInf, .posInf => .nan
  | .negInf, .negInf => .nan
  | .posInf, _ => .posInf
  | _, .posInf => .negInf
  | .negInf, _ => .negInf
  | _, .negInf => .posInf
  | .finite a, .finite b => .finite (a - b)

/-- The errors the float-valued `deposit`/`withdraw` can raise. -/
inductive FloatErr where
  | invalidAmount
  | insufficientFunds (requested balance : PyFloat)
deriving DecidableEq, Repr

/-- The cash side of an account state over Python floats (the fields
`deposit`/`withdraw` touch, with transactions as kind/amount pairs). -/
structure AccountF where
  cash_balance : PyFloat
  total_deposits : PyFloat
  transactions : List (TxnType × PyFloat)
deriving DecidableEq, Repr

/-- `Account.deposit` over Python floats: the guard is
`amount <= 0` (the `isinstance` half is vacuous on numeric input). -/
def depositF (a : AccountF) (amount : PyFloat) : AccountF × Option FloatErr :=
  if pyLe amount (.finite 0) then (a, some .invalidAmount)
  else
    ({ cash_balance := pyAdd a.cash_balance amount
       total_deposits := pyAdd a.total_deposits amount
       transactions := a.transactions ++ [(.DEPOSIT, amount)] }, none)

/-- `Account.withdraw` over Python floats. -/
def withdrawF (a : AccountF) (amount : PyFloat) : AccountF × Option FloatErr :=
  if pyLe amount (.finite 0) then (a, some .invalidAmount)
  else if pyLt a.cash_balance amount then
    (a, some (.insufficientFunds amount a.cash_balance))
  else
    ({ a with cash_balance := pySub a.cash_balance amount
              transactions := a.transactions ++ [(.WITHDRAW, amount)] }, none)

/-- The account of the repository test suite: `Account("acc123", "Test
User", initial_deposit=10000.0)`. -/
def acctA : Account :=
  { account_id := "acc123"
    user_name := "Test User"
    cash_balance := 10000
    total_deposits := 10000
    holdings := []
    transactions :=
      [{ type := .DEPOSIT, symbol := none, quantity := none,
         price_per_share := none, total_amount := 10000 }] }

/-- `acctA` after `buy_shares("AAPL", 10)` at price 150. -/
def acctBought : Account :=
  (Account.buy_shares [("AAPL", 150)] acctA "AAPL" 10).1

/-- A float-valued account funded with 100. -/
def acctF : AccountF :=
  { cash_balance := .finite 100
    total_deposits := .finite 100
    transactions := [(.DEPOSIT, .finite 100)] }


/-! ## Theorems -/

/-! ### Normalization lemmas: `str.upper()` is idempotent. -/

theorem char_toNat_ofNat_valid (n : Nat) (h : n.isValidChar) : (Char.ofNat n).toNat = n := by
  simp [Char.ofNat, h, Char.ofNatAux, Char.toNat, UInt32.toNat, BitVec.toNat_ofNatLt]

theorem char_toUpper_idem (c : Char) : c.toUpper.toUpper = c.toUpper := by
  simp only [Char.toUpper]
  by_cases h : c.toNat ≥ 97 ∧ c.toNat ≤ 122
  · rw [if_pos h]
    have hv : (c.toNat - 32).isValidChar := by left; omega
    rw [char_toNat_ofNat_valid _ hv]
    rw [if_neg (by omega)]
  · rw [if_neg h, if_neg h]

theorem pyUpper_idem (s : String) : pyUpper (pyUpper s) = pyUpper s := by
  simp only [pyUpper, List.map_map]
  congr 1
  exact List.map_congr_left fun c _ => char_toUpper_idem c

/-! ### Lemmas about the dict operations on holdings. -/

theorem lookupD_cons (kv : String × Int) (t : Holdings) (k : String) :
    lookupD (kv :: t) k = if kv.1 == k then kv.2 else lookupD t k := by
  by_cases hk : kv.1 == k <;> simp [lookupD, List.find?_cons, hk]

theorem hasKey_cons (kv : String × Int) (t : Holdings) (k : String) :
    hasKey (kv :: t) k = (kv.1 == k || hasKey t k) := by
  by_cases hk : kv.1 == k <;> simp [hasKey, List.find?_cons, hk]

theorem lookupD_of_not_hasKey (h : Holdings) (k : String) (hk : hasKey h k = false) :
    lookupD h k = 0 := by
  induction h with
  | nil => rfl
  | cons kv t ih =>
      rw [hasKey_cons] at hk
      rw [lookupD_cons]
      simp only [Bool.or_eq_false_iff] at hk
      rw [if_neg (by simp [hk.1]), ih hk.2]

theorem lookupD_pos_of_hasKey (h : Holdings) (k : String)
    (hpos : ∀ kv ∈ h, 0 < kv.2) (hk : hasKey h k = true) : 0 < lookupD h k := by
  induction h with
  | nil => simp [hasKey, List.find?] at hk
  | cons kv t ih =>
      rw [lookupD_cons]
      by_cases he : kv.1 == k
      · rw [if_pos he]; exact hpos kv (List.mem_cons_self kv t)
      · rw [if_neg he]
        rw [hasKey_cons] at hk
        simp only [he, Bool.false_or] at hk
        exact ih (fun x hx => hpos x (List.mem_cons_of_mem kv hx)) hk

theorem lookupD_nonneg (h : Holdings) (k : String)
    (hpos : ∀ kv ∈ h, 0 < kv.2) : 0 ≤ lookupD h k := by
  by_cases hk : hasKey h k
  · exact (lookupD_pos_of_hasKey h k hpos hk).le
  · rw [lookupD_of_not_hasKey h k (by simpa using hk)]

theorem lookupD_setKey (h : Holdings) (k : String) (v : Int) :
    lookupD (setKey h k v) k = v := by
  induction h with
  | nil => simp [setKey, lookupD, List.find?]
  | cons kv t ih =>
      by_cases hk : kv.1 == k
      · rw [setKey, if_pos hk, lookupD_cons, if_pos (by simp)]
      · rw [setKey, if_neg hk, lookupD_cons, if_neg hk, ih]

theorem setKey_setKey (h : Holdings) (k : String) (v w : Int) :
    setKey (setKey h k v) k w = setKey h k w := by
  induction h with
  | nil => simp [setKey]
  | cons kv t ih =>
      by_cases hk : kv.1 == k
      · rw [setKey, if_pos hk, setKey, if_pos (by simp), setKey, if_pos hk]
      · rw [setKey, if_neg hk, setKey, if_neg hk, ih, setKey, if_neg hk]

theorem setKey_lookupD_self (h : Holdings) (k : String) (hk : hasKey h k = true) :
    setKey h k (lookupD h k) = h := by
  induction h with
  | nil => simp [hasKey, List.find?] at hk
  | cons kv t ih =>
      by_cases he : kv.1 == k
      · rw [lookupD_cons, if_pos he, setKey, if_pos he]
        have hke : k = kv.1 := by
          have := of_decide_eq_true he
          exact this.symm
        rw [hke, Prod.mk.eta]
      · rw [hasKey_cons] at hk
        simp only [he, Bool.false_or] at hk
        rw [lookupD_cons, if_neg he, setKey, if_neg he, ih hk]

theorem setKey_absent (h : Holdings) (k : String) (v : Int)
    (hk : hasKey h k = false) : setKey h k v = h ++ [(k, v)] := by
  induction h with
  | nil => rfl
  | cons kv t ih =>
      rw [hasKey_cons] at hk
      simp only [Bool.or_eq_false_iff] at hk
      rw [setKey, if_neg (by simp [hk.1]), ih hk.2, List.cons_append]

theorem delKey_append_absent (h : Holdings) (k : String) (v : Int)
    (hk : hasKey h k = false) : delKey (h ++ [(k, v)]) k = h := by
  induction h with
  | nil => simp [delKey]
  | cons kv t ih =>
      rw [hasKey_cons] at hk
      simp only [Bool.or_eq_false_iff] at hk
      rw [List.cons_append, delKey, if_neg (by simp [hk.1]), ih hk.2]

theorem string_beq_eq (s k : String) (he : (s == k) = true) : s = k :=
  of_decide_eq_true he

theorem mem_setKey (h : Holdings) (k : String) (v : Int) (kv : String × Int)
    (hm : kv ∈ setKey h k v) : kv ∈ h ∨ kv = (k, v) := by
  induction h with
  | nil =>
      right
      simpa [setKey] using hm
  | cons kv0 t ih =>
      by_cases he : kv0.1 == k
      · rw [setKey, if_pos he] at hm
        rcases List.mem_cons.mp hm with h1 | h1
        · right; exact h1
        · left; exact List.mem_cons_of_mem _ h1
      · rw [setKey, if_neg he] at hm
        rcases List.mem_cons.mp hm with h1 | h1
        · left; exact h1 ▸ List.mem_cons_self _ _
        · rcases ih h1 with h2 | h2
          · left; exact List.mem_cons_of_mem _ h2
          · right; exact h2

theorem mem_delKey (h : Holdings) (k : String) (kv : String × Int)
    (hm : kv ∈ delKey h k) : kv ∈ h := by
  induction h with
  | nil => simp [delKey] at hm
  | cons kv0 t ih =>
      by_cases he : kv0.1 == k
      · rw [delKey, if_pos he] at hm
        exact List.mem_cons_of_mem _ hm
      · rw [delKey, if_neg he] at hm
        rcases List.mem_cons.mp hm with h1 | h1
        · exact h1 ▸ List.mem_cons_self _ _
        · exact List.mem_cons_of_mem _ (ih h1)

theorem hasKey_iff_mem_keys (h : Holdings) (k : String) :
    hasKey h k = true ↔ k ∈ h.map Prod.fst := by
  induction h with
  | nil => simp [hasKey, List.find?]
  | cons kv t ih =>
      rw [hasKey_cons]
      by_cases he : kv.1 == k
      · have : kv.1 = k := string_beq_eq _ _ he
        simp [this]
      · have : ¬ kv.1 = k := fun hc => he (by simp [hc])
        simp [he, ih, this, Ne.symm this]

theorem keys_setKey_present (h : Holdings) (k : String) (v : Int)
    (hk : hasKey h k = true) :
    (setKey h k v).map Prod.fst = h.map Prod.fst := by
  induction h with
  | nil => simp [hasKey, List.find?] at hk
  | cons kv t ih =>
      by_cases he : kv.1 == k
      · rw [setKey, if_pos he]
        have : k = kv.1 := (string_beq_eq _ _ he).symm
        simp [this]
      · rw [setKey, if_neg he]
        rw [hasKey_cons] at hk
        simp only [he, Bool.false_or] at hk
        simp [ih hk]

theorem keys_setKey_absent (h : Holdings) (k : String) (v : Int)
    (hk : hasKey h k = false) :
    (setKey h k v).map Prod.fst = h.map Prod.fst ++ [k] := by
  rw [setKey_absent h k v hk]
  simp

theorem keys_delKey_sublist (h : Holdings) (k : String) :
    ((delKey h k).map Prod.fst).Sublist (h.map Prod.fst) := by
  induction h with
  | nil => simp [delKey]
  | cons kv t ih =>
      by_cases he : kv.1 == k
      · rw [delKey, if_pos he]
        simp only [List.map_cons]
        exact List.sublist_cons_self _ _
      · rw [delKey, if_neg he]
        simp only [List.map_cons]
        exact ih.cons₂ _

theorem hasKey_delKey_of_nodup (h : Holdings) (k : String)
    (hn : (h.map Prod.fst).Nodup) : hasKey (delKey h k) k = false := by
  induction h with
  | nil => rfl
  | cons kv t ih =>
      simp only [List.map_cons, List.nodup_cons] at hn
      by_cases he : kv.1 == k
      · rw [delKey, if_pos he]
        have hk : k = kv.1 := (string_beq_eq _ _ he).symm
        rw [Bool.eq_false_iff]
        intro hc
        exact hn.1 (hk ▸ (hasKey_iff_mem_keys t k).mp hc)
      · rw [delKey, if_neg he, hasKey_cons]
        simp [he, ih hn.2]

theorem sumByType_append_one (k : TxnType) (ts : List Txn) (t : Txn) :
    sumByType k (ts ++ [t]) =
      sumByType k ts + (if t.type = k then t.total_amount else 0) := by
  by_cases ht : t.type = k <;>
    simp [sumByType, List.filter_append, ht, List.map_append]

/-! ### Atomicity case analyses of the four mutating operations. -/

theorem deposit_error_eq (a : Account) (amt : Rat) (a2 : Account) (e : TradingError)
    (h : a.deposit amt = (a2, some e)) : a2 = a := by
  unfold Account.deposit at h
  split at h
  · injection h with h1 h2
    exact h1.symm
  · injection h with h1 h2
    exact Option.noConfusion h2

theorem deposit_ok_txns (a : Account) (amt : Rat) (a2 : Account)
    (h : a.deposit amt = (a2, none)) :
    ∃ t, a2.transactions = a.transactions ++ [t] := by
  unfold Account.deposit at h
  split at h
  · injection h with h1 h2
    exact Option.noConfusion h2
  · injection h with h1 h2
    exact ⟨_, by rw [← h1]; rfl⟩

theorem withdraw_error_eq (a : Account) (amt : Rat) (a2 : Account) (e : TradingError)
    (h : a.withdraw amt = (a2, some e)) : a2 = a := by
  unfold Account.withdraw at h
  split at h
  · injection h with h1 h2
    exact h1.symm
  · split at h
    · injection h with h1 h2
      exact h1.symm
    · injection h with h1 h2
      exact Option.noConfusion h2

theorem withdraw_ok_txns (a : Account) (amt : Rat) (a2 : Account)
    (h : a.withdraw amt = (a2, none)) :
    ∃ t, a2.transactions = a.transactions ++ [t] := by
  unfold Account.withdraw at h
  split at h
  · injection h with h1 h2
    exact Option.noConfusion h2
  · split at h
    · injection h with h1 h2
      exact Option.noConfusion h2
    · injection h with h1 h2
      exact ⟨_, by rw [← h1]; rfl⟩

theorem buy_error_eq (prices : PriceTable) (a : Account) (symbol : String)
    (q : Int) (a2 : Account) (e : TradingError)
    (h : Account.buy_shares prices a symbol q = (a2, some e)) : a2 = a := by
  unfold Account.buy_shares at h
  dsimp only at h
  split at h
  · injection h with h1 h2
    exact h1.symm
  · split at h
    · injection h with h1 h2
      exact h1.symm
    · split at h
      · injection h with h1 h2
        exact h1.symm
      · injection h with h1 h2
        exact Option.noConfusion h2

theorem buy_ok_txns (prices : PriceTable) (a : Account) (symbol : String)
    (q : Int) (a2 : Account)
    (h : Account.buy_shares prices a symbol q = (a2, none)) :
    ∃ t, a2.transactions = a.transactions ++ [t] := by
  unfold Account.buy_shares at h
  dsimp only at h
  split at h
  · injection h with h1 h2
    exact Option.noConfusion h2
  · split at h
    · injection h with h1 h2
      exact Option.noConfusion h2
    · split at h
      · injection h with h1 h2
        exact Option.noConfusion h2
      · injection h with h1 h2
        exact ⟨_, by rw [← h1]; rfl⟩

theorem sell_error_eq (prices : PriceTable) (a : Account) (symbol : String)
    (q : Int) (a2 : Account) (e : TradingError)
    (h : Account.sell_shares prices a symbol q = (a2, some e)) : a2 = a := by
  unfold Account.sell_shares at h
  dsimp only at h
  split at h
  · injection h with h1 h2
    exact h1.symm
  · split at h
    · injection h with h1 h2
      exact h1.symm
    · split at h
      · injection h with h1 h2
        exact h1.symm
      · injection h with h1 h2
        exact Option.noConfusion h2

theorem sell_ok_txns (prices : PriceTable) (a : Account) (symbol : String)
    (q : Int) (a2 : Account)
    (h : Account.sell_shares prices a symbol q = (a2, none)) :
    ∃ t, a2.transactions = a.transactions ++ [t] := by
  unfold Account.sell_shares at h
  dsimp only at h
  split at h
  · injection h with h1 h2
    exact Option.noConfusion h2
  · split at h
    · injection h with h1 h2
      exact Option.noConfusion h2
    · split at h
      · injection h with h1 h2
        exact Option.noConfusion h2
      · rename_i price heq
        injection h with h1 h2
        refine ⟨{ type := .SELL,
                  symbol := if symbol = "" then none else some (pyUpper symbol),
                  quantity := some q, price_per_share := some price,
                  total_amount := price * q }, ?_⟩
        rw [← h1]
        unfold Account.record_transaction
        split <;> rfl

/-! ### Invariant preservation. -/

theorem hasKey_of_mem (h : Holdings) (kv : String × Int) (hm : kv ∈ h) :
    hasKey h kv.1 = true :=
  (hasKey_iff_mem_keys h kv.1).mpr (List.mem_map_of_mem Prod.fst hm)

theorem hasKey_of_lookupD_ne (h : Holdings) (k : String)
    (hne : lookupD h k ≠ 0) : hasKey h k = true := by
  cases hk : hasKey h k with
  | true => rfl
  | false => exact absurd (lookupD_of_not_hasKey h k hk) hne

theorem get_share_price_pos (prices : PriceTable) (symbol : String) (price : Rat)
    (hv : ValidPrices prices)
    (h : get_share_price prices symbol = .ok price) : 0 < price := by
  unfold get_share_price at h
  cases hf : List.find? (fun kv => kv.1 == (pyUpper symbol)) prices with
  | none => rw [hf] at h; exact Except.noConfusion h
  | some kv =>
      rw [hf] at h
      simp only [Option.map_some'] at h
      injection h with h1
      exact h1 ▸ hv kv (List.mem_of_find?_eq_some hf)

theorem inv_deposit (a : Account) (amt : Rat) (hI : Inv a) :
    Inv (a.deposit amt).1 := by
  obtain ⟨h1, h2, h3, h4, h5⟩ := hI
  unfold Account.deposit
  split
  · exact ⟨h1, h2, h3, h4, h5⟩
  · next hamt =>
      push_neg at hamt
      dsimp only [Account.record_transaction]
      refine ⟨show (0:Rat) ≤ a.cash_balance + amt by linarith, h2, h3, ?_, ?_⟩
      · simp [sumByType_append_one, h4]
      · simp only [sumByType_append_one]
        simp
        linarith

theorem inv_withdraw (a : Account) (amt : Rat) (hI : Inv a) :
    Inv (a.withdraw amt).1 := by
  obtain ⟨h1, h2, h3, h4, h5⟩ := hI
  unfold Account.withdraw
  split
  · exact ⟨h1, h2, h3, h4, h5⟩
  · next hamt =>
      split
      · exact ⟨h1, h2, h3, h4, h5⟩
      · next hbal =>
          push_neg at hamt hbal
          dsimp only [Account.record_transaction]
          refine ⟨show (0:Rat) ≤ a.cash_balance - amt by linarith, h2, h3, ?_, ?_⟩
          · simp [sumByType_append_one, h4]
          · simp only [sumByType_append_one]
            simp
            linarith

theorem inv_buy (prices : PriceTable) (a : Account) (symbol : String) (q : Int)
    (_hv : ValidPrices prices) (hI : Inv a) :
    Inv (Account.buy_shares prices a symbol q).1 := by
  obtain ⟨h1, h2, h3, h4, h5⟩ := hI
  have hpos : ∀ kv ∈ a.holdings, (0:Int) < kv.2 := fun kv hk => (h2 kv hk).1
  unfold Account.buy_shares
  dsimp only
  split
  · exact ⟨h1, h2, h3, h4, h5⟩
  · next hq =>
      push_neg at hq
      cases hp : get_share_price prices symbol with
      | error e => exact ⟨h1, h2, h3, h4, h5⟩
      | ok price =>
          dsimp only
          split
          · exact ⟨h1, h2, h3, h4, h5⟩
          · next hbal =>
              push_neg at hbal
              dsimp only [Account.record_transaction]
              have hw : (0:Int) ≤ lookupD a.holdings (pyUpper symbol) :=
                lookupD_nonneg _ _ hpos
              refine ⟨show (0:Rat) ≤ a.cash_balance - price * q by linarith,
                ?_, ?_, ?_, ?_⟩
              · intro kv hm
                rcases mem_setKey _ _ _ _ hm with hmm | hee
                · exact h2 kv hmm
                · rw [hee]
                  exact ⟨by dsimp only; omega, pyUpper_idem symbol⟩
              · cases hk : hasKey a.holdings (pyUpper symbol) with
                | true => rw [keys_setKey_present _ _ _ hk]; exact h3
                | false =>
                    rw [keys_setKey_absent _ _ _ hk]
                    refine h3.append (List.nodup_singleton _) ?_
                    intro x hx hy
                    rw [List.mem_singleton] at hy
                    subst hy
                    rw [(hasKey_iff_mem_keys _ _).mpr hx] at hk
                    exact Bool.noConfusion hk
              · simp [sumByType_append_one, h4]
              · simp only [sumByType_append_one]
                simp
                linarith

theorem inv_sell (prices : PriceTable) (a : Account) (symbol : String) (q : Int)
    (hv : ValidPrices prices) (hI : Inv a) :
    Inv (Account.sell_shares prices a symbol q).1 := by
  obtain ⟨h1, h2, h3, h4, h5⟩ := hI
  have hpos : ∀ kv ∈ a.holdings, (0:Int) < kv.2 := fun kv hk => (h2 kv hk).1
  unfold Account.sell_shares
  dsimp only
  split
  · exact ⟨h1, h2, h3, h4, h5⟩
  · next hq =>
      push_neg at hq
      split
      · exact ⟨h1, h2, h3, h4, h5⟩
      · next howned =>
          push_neg at howned
          cases hp : get_share_price prices symbol with
          | error e => exact ⟨h1, h2, h3, h4, h5⟩
          | ok price =>
              dsimp only
              have hprice : 0 < price := get_share_price_pos prices symbol price hv hp
              have hqq : (0:Rat) < (q:Rat) := by exact_mod_cast hq
              have hwk : hasKey a.holdings (pyUpper symbol) = true :=
                hasKey_of_lookupD_ne _ _ (by omega)
              have hcash : (0:Rat) ≤ a.cash_balance + price * q := by nlinarith
              rw [lookupD_setKey]
              split
              · next hzero =>
                  have hkeys : (setKey a.holdings (pyUpper symbol)
                      (lookupD a.holdings (pyUpper symbol) - q)).map Prod.fst =
                      a.holdings.map Prod.fst :=
                    keys_setKey_present _ _ _ hwk
                  have h3x : ((setKey a.holdings (pyUpper symbol)
                      (lookupD a.holdings (pyUpper symbol) - q)).map Prod.fst).Nodup := by
                    rw [hkeys]; exact h3
                  have hno : hasKey (delKey (setKey a.holdings (pyUpper symbol)
                      (lookupD a.holdings (pyUpper symbol) - q)) (pyUpper symbol))
                      (pyUpper symbol) = false :=
                    hasKey_delKey_of_nodup _ _ h3x
                  dsimp only [Account.record_transaction]
                  refine ⟨hcash, ?_, ?_, ?_, ?_⟩
                  · intro kv hm
                    have hmem := mem_delKey _ _ _ hm
                    rcases mem_setKey _ _ _ _ hmem with hmm | hee
                    · exact h2 kv hmm
                    · exfalso
                      have := hasKey_of_mem _ _ hm
                      rw [hee] at this
                      dsimp only at this
                      rw [this] at hno
                      exact Bool.noConfusion hno
                  · exact ((keys_delKey_sublist _ _).nodup h3x)
                  · simp [sumByType_append_one, h4]
                  · simp only [sumByType_append_one]
                    simp
                    linarith
              · next hzero =>
                  dsimp only [Account.record_transaction]
                  refine ⟨hcash, ?_, ?_, ?_, ?_⟩
                  · intro kv hm
                    rcases mem_setKey _ _ _ _ hm with hmm | hee
                    · exact h2 kv hmm
                    · rw [hee]
                      refine ⟨?_, pyUpper_idem symbol⟩
                      dsimp only
                      omega
                  · rw [keys_setKey_present _ _ _ hwk]; exact h3
                  · simp [sumByType_append_one, h4]
                  · simp only [sumByType_append_one]
                    simp
                    linarith

theorem inv_applyOp (prices : PriceTable) (a : Account) (op : Op)
    (hv : ValidPrices prices) (hI : Inv a) : Inv (applyOp prices a op).1 := by
  cases op with
  | deposit amt => exact inv_deposit a amt hI
  | withdraw amt => exact inv_withdraw a amt hI
  | buy s q => exact inv_buy prices a s q hv hI
  | sell s q => exact inv_sell prices a s q hv hI

theorem inv_run (steps : List (PriceTable × Op)) (a : Account)
    (hI : Inv a) (hv : ∀ s ∈ steps, ValidPrices s.1) : Inv (run a steps) := by
  induction steps generalizing a with
  | nil => exact hI
  | cons s rest ih =>
      exact ih (applyOp s.1 a s.2).1
        (inv_applyOp s.1 a s.2 (hv s (List.mem_cons_self s rest)) hI)
        (fun x hx => hv x (List.mem_cons_of_mem s hx))

theorem inv_construct (account_id user_name : String) (d : Rat) (a : Account)
    (h : Account.construct account_id user_name d = some a) : Inv a := by
  unfold Account.construct at h
  split at h
  · exact Option.noConfusion h
  · next hd =>
      push_neg at hd
      injection h with h1
      by_cases hdp : d > 0
      · rw [if_pos hdp] at h1
        rw [← h1]
        refine ⟨hd, by simp [Account.record_transaction], by simp [Account.record_transaction], ?_, ?_⟩
        · simp [Account.record_transaction, sumByType]
        · simp [Account.record_transaction, sumByType]
      · rw [if_neg hdp] at h1
        rw [← h1]
        have hd0 : d = 0 := le_antisymm (not_lt.mp hdp) hd
        refine ⟨hd, by simp, by simp, ?_, ?_⟩
        · simpa [sumByType] using hd0
        · simpa [sumByType] using hd0

theorem reachable_inv (a : Account) (h : Reachable a) : Inv a := by
  obtain ⟨account_id, user_name, d, a0, steps, hc, hv, hr⟩ := h
  exact hr ▸ inv_run steps a0 (inv_construct account_id user_name d a0 hc) hv

theorem construct_acctA :
    Account.construct "acc123" "Test User" 10000 = some acctA := by decide

theorem reachable_acctA : Reachable acctA :=
  ⟨"acc123", "Test User", 10000, acctA, [], construct_acctA, by simp, rfl⟩

theorem reachable_acctBought : Reachable acctBought :=
  ⟨"acc123", "Test User", 10000, acctA, [([("AAPL", 150)], .buy "AAPL" 10)],
    construct_acctA, by simp [ValidPrices], rfl⟩

/-- C1: each call to deposit, withdraw, buy or sell is all-or-nothing:
a successful call appends exactly one transaction record, and a call that
fails with any error returns every component of the state exactly as it
was. -/
theorem mutating_calls_atomic (prices : PriceTable) (a : Account) (op : Op) :
    (∀ a2, applyOp prices a op = (a2, none) →
        ∃ t, a2.transactions = a.transactions ++ [t]) ∧
    (∀ a2 e, applyOp prices a op = (a2, some e) → a2 = a) := by
  constructor
  · intro a2 h
    cases op with
    | deposit amt => exact deposit_ok_txns a amt a2 h
    | withdraw amt => exact withdraw_ok_txns a amt a2 h
    | buy s q => exact buy_ok_txns prices a s q a2 h
    | sell s q => exact sell_ok_txns prices a s q a2 h
  · intro a2 e h
    cases op with
    | deposit amt => exact deposit_error_eq a amt a2 e h
    | withdraw amt => exact withdraw_error_eq a amt a2 e h
    | buy s q => exact buy_error_eq prices a s q a2 e h
    | sell s q => exact sell_error_eq prices a s q a2 e h

/-- Witness for C1: a concrete successful deposit appends one record. -/
theorem mutating_calls_atomic_witness :
    ∃ t, (Account.deposit acctA 5).1.transactions = acctA.transactions ++ [t] :=
  (mutating_calls_atomic [] acctA (.deposit 5)).1 (Account.deposit acctA 5).1 rfl

/-- C2: in every reachable state the cash balance is non-negative, and
every mutating operation (under the positive-price collaborator contract)
preserves this. -/
theorem cash_balance_nonneg (a : Account) (h : Reachable a) :
    0 ≤ a.cash_balance ∧
    ∀ (prices : PriceTable) (op : Op), ValidPrices prices →
      0 ≤ (applyOp prices a op).1.cash_balance := by
  have hI := reachable_inv a h
  exact ⟨hI.1, fun prices op hv => (inv_applyOp prices a op hv hI).1⟩

/-- Witness for C2 at the concrete post-purchase state. -/
theorem cash_balance_nonneg_witness :
    (0:Rat) ≤ acctBought.cash_balance ∧
      (0:Rat) ≤ (applyOp [("AAPL", 160)] acctBought (.sell "AAPL" 10)).1.cash_balance :=
  ⟨(cash_balance_nonneg acctBought reachable_acctBought).1,
    (cash_balance_nonneg acctBought reachable_acctBought).2 [("AAPL", 160)]
      (.sell "AAPL" 10) (by simp [ValidPrices])⟩

/-- C10: the balances are determined by the transaction log:
`total_deposits` is the sum of DEPOSIT amounts, and the cash balance is
deposits minus withdrawals minus buys plus sells. -/
theorem balances_determined_by_log (a : Account) (h : Reachable a) :
    a.total_deposits = sumByType .DEPOSIT a.transactions ∧
    a.cash_balance =
      sumByType .DEPOSIT a.transactions - sumByType .WITHDRAW a.transactions
        - sumByType .BUY a.transactions + sumByType .SELL a.transactions := by
  have hI := reachable_inv a h
  exact ⟨hI.2.2.2.1, hI.2.2.2.2⟩

/-- Witness for C10 at the concrete post-purchase state. -/
theorem balances_determined_by_log_witness :
    acctBought.cash_balance =
      sumByType .DEPOSIT acctBought.transactions
        - sumByType .WITHDRAW acctBought.transactions
        - sumByType .BUY acctBought.transactions
        + sumByType .SELL acctBought.transactions :=
  (balances_determined_by_log acctBought reachable_acctBought).2

/-- C3: in every reachable state each holdings entry maps a normalized
(uppercase-fixed) symbol to a strictly positive quantity, and selling the
full owned quantity of a symbol removes its key entirely. -/
theorem holdings_positive_normalized (a : Account) (h : Reachable a) :
    (∀ kv ∈ a.holdings, 0 < kv.2 ∧ pyUpper kv.1 = kv.1) ∧
    (∀ (prices : PriceTable) (symbol : String) (a2 : Account),
      0 < lookupD a.holdings (pyUpper symbol) →
      Account.sell_shares prices a symbol (lookupD a.holdings (pyUpper symbol)) =
        (a2, none) →
      hasKey a2.holdings (pyUpper symbol) = false) := by
  obtain ⟨h1, h2, h3, h4, h5⟩ := reachable_inv a h
  refine ⟨h2, ?_⟩
  intro prices symbol a2 hown hsell
  have hwk : hasKey a.holdings (pyUpper symbol) = true :=
    hasKey_of_lookupD_ne _ _ (by omega)
  unfold Account.sell_shares at hsell
  dsimp only at hsell
  rw [if_neg (not_le.mpr hown), if_neg (lt_irrefl _)] at hsell
  cases hp : get_share_price prices symbol with
  | error e =>
      rw [hp] at hsell
      injection hsell with hl hr
      exact Option.noConfusion hr
  | ok price =>
      rw [hp] at hsell
      dsimp only at hsell
      rw [lookupD_setKey, sub_self] at hsell
      rw [if_pos rfl] at hsell
      injection hsell with hl hr
      rw [← hl]
      dsimp only [Account.record_transaction]
      apply hasKey_delKey_of_nodup
      rw [keys_setKey_present _ _ _ hwk]
      exact h3

/-- Witness for C3: selling all 10 AAPL shares of the post-purchase state
removes the AAPL key. -/
theorem holdings_positive_normalized_witness :
    hasKey (Account.sell_shares [("AAPL", 160)] acctBought "AAPL"
        (lookupD acctBought.holdings (pyUpper "AAPL"))).1.holdings
      (pyUpper "AAPL") = false :=
  (holdings_positive_normalized acctBought reachable_acctBought).2
    [("AAPL", 160)] "AAPL"
    (Account.sell_shares [("AAPL", 160)] acctBought "AAPL"
      (lookupD acctBought.holdings (pyUpper "AAPL"))).1
    (by with_unfolding_all decide) (by with_unfolding_all rfl)

theorem buy_shares_ok_eq (prices : PriceTable) (b : Account) (symbol : String)
    (q : Int) (price : Rat) (hq : 0 < q)
    (hp : get_share_price prices symbol = .ok price)
    (haff : price * q ≤ b.cash_balance) :
    Account.buy_shares prices b symbol q =
      (Account.record_transaction
        { b with
          cash_balance := b.cash_balance - price * q
          holdings := setKey b.holdings (pyUpper symbol)
            (lookupD b.holdings (pyUpper symbol) + q) }
        .BUY (some symbol) (some q) (some price) (price * q), none) := by
  unfold Account.buy_shares
  rw [if_neg (not_le.mpr hq), hp]
  dsimp only
  rw [if_neg (not_lt.mpr haff)]

theorem sell_shares_ok_eq (prices : PriceTable) (b : Account) (symbol : String)
    (q : Int) (price : Rat) (hq : 0 < q)
    (how : q ≤ lookupD b.holdings (pyUpper symbol))
    (hp : get_share_price prices symbol = .ok price) :
    Account.sell_shares prices b symbol q =
      (Account.record_transaction
        { b with
          cash_balance := b.cash_balance + price * q
          holdings :=
            if lookupD b.holdings (pyUpper symbol) - q = 0 then
              delKey (setKey b.holdings (pyUpper symbol)
                (lookupD b.holdings (pyUpper symbol) - q)) (pyUpper symbol)
            else
              setKey b.holdings (pyUpper symbol)
                (lookupD b.holdings (pyUpper symbol) - q) }
        .SELL (some symbol) (some q) (some price) (price * q), none) := by
  unfold Account.sell_shares
  rw [if_neg (not_le.mpr hq), if_neg (not_lt.mpr how), hp]
  dsimp only
  rw [lookupD_setKey]
  split <;> rfl

/-- C4: for a reachable state, a resolvable symbol and an affordable
positive quantity, buying then immediately selling the same quantity at an
unchanged price succeeds and restores cash_balance and get_total_value
exactly; get_profit_loss is invariant under the round trip. -/
theorem buy_sell_round_trip (prices : PriceTable) (a : Account) (symbol : String)
    (q : Int) (price : Rat) (h : Reachable a)
    (hprice : get_share_price prices symbol = .ok price)
    (hq : 0 < q)
    (haff : price * q ≤ a.cash_balance) :
    (Account.buy_shares prices a symbol q).2 = none ∧
    (Account.sell_shares prices (Account.buy_shares prices a symbol q).1
      symbol q).2 = none ∧
    (Account.sell_shares prices (Account.buy_shares prices a symbol q).1
      symbol q).1.cash_balance = a.cash_balance ∧
    Account.get_total_value prices
      (Account.sell_shares prices (Account.buy_shares prices a symbol q).1
        symbol q).1 = Account.get_total_value prices a ∧
    Account.get_profit_loss prices
      (Account.sell_shares prices (Account.buy_shares prices a symbol q).1
        symbol q).1 = Account.get_profit_loss prices a := by
  obtain ⟨h1, h2, h3, h4, h5⟩ := reachable_inv a h
  have hpos : ∀ kv ∈ a.holdings, (0:Int) < kv.2 := fun kv hk => (h2 kv hk).1
  have hw : (0:Int) ≤ lookupD a.holdings (pyUpper symbol) :=
    lookupD_nonneg _ _ hpos
  have hbuy := buy_shares_ok_eq prices a symbol q price hq hprice haff
  have hA1h : (Account.buy_shares prices a symbol q).1.holdings =
      setKey a.holdings (pyUpper symbol)
        (lookupD a.holdings (pyUpper symbol) + q) := by rw [hbuy]; rfl
  have hA1c : (Account.buy_shares prices a symbol q).1.cash_balance =
      a.cash_balance - price * q := by rw [hbuy]; rfl
  have hA1d : (Account.buy_shares prices a symbol q).1.total_deposits =
      a.total_deposits := by rw [hbuy]; rfl
  have hsell := sell_shares_ok_eq prices (Account.buy_shares prices a symbol q).1
    symbol q price hq (by rw [hA1h, lookupD_setKey]; omega) hprice
  have hA2c : (Account.sell_shares prices (Account.buy_shares prices a symbol q).1
      symbol q).1.cash_balance =
      (Account.buy_shares prices a symbol q).1.cash_balance + price * q := by
    rw [hsell]; rfl
  have hA2d : (Account.sell_shares prices (Account.buy_shares prices a symbol q).1
      symbol q).1.total_deposits = a.total_deposits := by
    rw [hsell]
    dsimp only [Account.record_transaction]
    exact hA1d
  have hA2h : (Account.sell_shares prices (Account.buy_shares prices a symbol q).1
      symbol q).1.holdings = a.holdings := by
    rw [hsell]
    dsimp only [Account.record_transaction]
    rw [hA1h, lookupD_setKey, setKey_setKey, add_sub_cancel_right]
    by_cases hw0 : lookupD a.holdings (pyUpper symbol) = 0
    · rw [if_pos hw0]
      have hkf : hasKey a.holdings (pyUpper symbol) = false := by
        cases hkc : hasKey a.holdings (pyUpper symbol) with
        | false => rfl
        | true => exact absurd hw0 (lookupD_pos_of_hasKey _ _ hpos hkc).ne'
      rw [hw0, setKey_absent _ _ _ hkf, delKey_append_absent _ _ _ hkf]
    · rw [if_neg hw0]
      have hkt : hasKey a.holdings (pyUpper symbol) = true :=
        hasKey_of_lookupD_ne _ _ hw0
      exact setKey_lookupD_self _ _ hkt
  have hcash : (Account.sell_shares prices (Account.buy_shares prices a symbol q).1
      symbol q).1.cash_balance = a.cash_balance := by
    rw [hA2c, hA1c]
    ring
  refine ⟨by rw [hbuy], by rw [hsell], hcash, ?_, ?_⟩
  · unfold Account.get_total_value Account.get_cash_balance Account.get_portfolio_value
    rw [hcash, hA2h]
  · unfold Account.get_profit_loss Account.get_total_value Account.get_cash_balance
      Account.get_portfolio_value
    rw [hcash, hA2h, hA2d]

/-- Witness for C4: round trip of 10 AAPL shares at price 150 on the test
account. -/
theorem buy_sell_round_trip_witness :
    (Account.buy_shares [("AAPL", 150)] acctA "AAPL" 10).2 = none ∧
    (Account.sell_shares [("AAPL", 150)]
      (Account.buy_shares [("AAPL", 150)] acctA "AAPL" 10).1 "AAPL" 10).2 = none ∧
    (Account.sell_shares [("AAPL", 150)]
      (Account.buy_shares [("AAPL", 150)] acctA "AAPL" 10).1 "AAPL"
        10).1.cash_balance = acctA.cash_balance ∧
    Account.get_total_value [("AAPL", 150)]
      (Account.sell_shares [("AAPL", 150)]
        (Account.buy_shares [("AAPL", 150)] acctA "AAPL" 10).1 "AAPL" 10).1 =
      Account.get_total_value [("AAPL", 150)] acctA ∧
    Account.get_profit_loss [("AAPL", 150)]
      (Account.sell_shares [("AAPL", 150)]
        (Account.buy_shares [("AAPL", 150)] acctA "AAPL" 10).1 "AAPL" 10).1 =
      Account.get_profit_loss [("AAPL", 150)] acctA :=
  buy_sell_round_trip [("AAPL", 150)] acctA "AAPL" 10 150 reachable_acctA
    (by with_unfolding_all rfl) (by decide) (by with_unfolding_all decide)

/-- C5 is contradicted by the code: a successful withdrawal leaves
total_deposits unchanged but lowers get_profit_loss by the withdrawn
amount (here from 0 to -500).  The docstring of get_profit_loss and the
assertion at test_accounts.py:259 state that withdrawals do not affect
it. -/
theorem withdraw_changes_profit_loss :
    (Account.withdraw acctA 500).2 = none ∧
    (Account.withdraw acctA 500).1.total_deposits = acctA.total_deposits ∧
    Account.get_profit_loss test_prices acctA = 0 ∧
    Account.get_profit_loss test_prices (Account.withdraw acctA 500).1 = -500 :=
  ⟨by with_unfolding_all rfl, by with_unfolding_all rfl,
    by with_unfolding_all rfl, by with_unfolding_all rfl⟩

/-- C6: selling strictly more than the owned quantity of the normalized
symbol fails with InsufficientShares carrying the requested and owned
quantities (also when owned is 0), with the state unchanged and the same
outcome for every price table — the price lookup is not consulted, so an
unknown symbol still yields InsufficientShares, not UnknownSymbol. -/
theorem sell_insufficient_shares (prices : PriceTable) (a : Account)
    (symbol : String) (q : Int) (hq : 0 < q)
    (hgt : lookupD a.holdings (pyUpper symbol) < q) :
    Account.sell_shares prices a symbol q =
      (a, some (.insufficientShares q (pyUpper symbol)
        (lookupD a.holdings (pyUpper symbol)))) := by
  unfold Account.sell_shares
  rw [if_neg (not_le.mpr hq), if_pos hgt]

/-- Witness for C6: selling an unowned symbol that has no price data, with
an empty price table, fails with InsufficientShares reporting owned = 0. -/
theorem sell_insufficient_shares_witness :
    Account.sell_shares [] acctA "XYZ" 5 =
      (acctA, some (.insufficientShares 5 (pyUpper "XYZ") 0)) :=
  sell_insufficient_shares [] acctA "XYZ" 5 (by decide)
    (by with_unfolding_all decide)

/-- C7 as stated is false on the code: the deposit guard is only
`amount <= 0`, so positive infinity passes it and the deposit applies —
no InvalidAmount, and the state changes. -/
theorem deposit_accepts_positive_infinity :
    (depositF acctF .posInf).2 = none ∧
    (depositF acctF .posInf).1.cash_balance = .posInf ∧
    (depositF acctF .posInf).1 ≠ acctF := by
  refine ⟨by with_unfolding_all rfl, by with_unfolding_all rfl,
    by with_unfolding_all decide⟩

/-- C7 amended: deposit and withdraw fail with InvalidAmount exactly when
the amount compares `<= 0` in IEEE float order (so a positive non-finite
amount such as +inf is accepted and applied), and on that failure the
state is returned unchanged. -/
theorem deposit_withdraw_invalid_amount_iff (a : AccountF) (amount : PyFloat) :
    ((depositF a amount).2 = some .invalidAmount ↔
      pyLe amount (.finite 0) = true) ∧
    ((withdrawF a amount).2 = some .invalidAmount ↔
      pyLe amount (.finite 0) = true) ∧
    (pyLe amount (.finite 0) = true →
      depositF a amount = (a, some .invalidAmount) ∧
      withdrawF a amount = (a, some .invalidAmount)) := by
  by_cases hle : pyLe amount (.finite 0) = true
  · unfold depositF withdrawF
    rw [if_pos hle, if_pos hle]
    simp [hle]
  · unfold depositF withdrawF
    rw [if_neg hle, if_neg hle]
    refine ⟨by simp [hle], ?_, by simp [hle]⟩
    split
    · simp [hle]
    · simp [hle]

/-- Witness for C7 amended: a negative amount is rejected with the state
unchanged. -/
theorem deposit_withdraw_invalid_amount_iff_witness :
    depositF acctF (.finite (-5)) = (acctF, some .invalidAmount) :=
  ((deposit_withdraw_invalid_amount_iff acctF (.finite (-5))).2.2 (by decide)).1

theorem sumHoldings_eq_filter (prices : PriceTable) (h : Holdings) :
    Account.sumHoldings prices h =
      ((h.filter fun kv => (get_share_price prices kv.1).toOption.isSome).map
        fun kv => ((get_share_price prices kv.1).toOption.getD 0) * kv.2).sum := by
  induction h with
  | nil => rfl
  | cons kv rest ih =>
      cases kv with
      | mk s n =>
          cases hp : get_share_price prices s with
          | error e => simp [Account.sumHoldings, hp, ih, Except.toOption]
          | ok p => simp [Account.sumHoldings, hp, ih, Except.toOption]

/-- C8: the portfolio value is the sum of price times quantity over
exactly the holdings whose price lookup succeeds — a holding whose lookup
fails with UnknownSymbol contributes 0 and the remaining holdings are
still processed (the function is total: no error escapes to the caller) —
and the total value is the cash balance plus the portfolio value. -/
theorem portfolio_value_policy (prices : PriceTable) (a : Account) :
    Account.get_portfolio_value prices a =
      ((a.holdings.filter fun kv =>
          (get_share_price prices kv.1).toOption.isSome).map
        fun kv => ((get_share_price prices kv.1).toOption.getD 0) * kv.2).sum ∧
    Account.get_total_value prices a =
      Account.get_cash_balance a + Account.get_portfolio_value prices a :=
  ⟨sumHoldings_eq_filter prices a.holdings, rfl⟩

/-- C9 as stated is false on the code: after deposit 10000 and buying 10
shares at 150 (cash 8500), with the price then at 160, get_profit_loss
returns (8500 + 10*160) - 10000 = 100, not -400.  (The repository test
reaches -400 only because it also withdraws 500 before the price change,
which the scenario omits.) -/
theorem scenario_profit_loss_not_neg400 :
    Account.construct "acc123" "Test User" 10000 = some acctA ∧
    (Account.buy_shares [("AAPL", 150)] acctA "AAPL" 10).2 = none ∧
    acctBought.cash_balance = 8500 ∧
    Account.get_profit_loss [("AAPL", 160)] acctBought ≠ -400 :=
  ⟨by decide, by with_unfolding_all rfl, by with_unfolding_all rfl,
    by with_unfolding_all decide⟩

/-- C9 amended: for the stated scenario (deposit 10000, buy 10 shares at
150 leaving cash 8500, price then 160) get_profit_loss returns 100. -/
theorem scenario_profit_loss_value :
    Account.construct "acc123" "Test User" 10000 = some acctA ∧
    (Account.buy_shares [("AAPL", 150)] acctA "AAPL" 10).2 = none ∧
    acctBought.cash_balance = 8500 ∧
    Account.get_profit_loss [("AAPL", 160)] acctBought = 100 :=
  ⟨by decide, by with_unfolding_all rfl, by with_unfolding_all rfl,
    by with_unfolding_all rfl⟩

end Trading
